import Mathlib

/-!
Shallow embedding of the `rmines` minesweeper engine, translated from the
canonical board implementation in `src/src/game.rs` (the spec declares the
most refined of the repository's near-duplicate drafts canonical; `game.rs`
is that draft: it has `BoardClear`, `CacheResult` and the flag-cap logic).

Modelling conventions:
* `usize` is modelled as `Nat`; the places where the code performs arithmetic
  that can overflow (`coord -= 1` in `Board::cache` / `Board::update_label`,
  `area - clear.len()` in `Board::explore`, and the area product
  `rows * cols` in `Board::new`) are modelled with release-mode wrapping
  arithmetic modulo `2^64` (`usizeSub`, `usizeMul`).
* `HashSet<Coord>` becomes `Finset Coord`; `HashMap<Coord, usize>` becomes an
  association list built exactly the way the code builds it.
* `String` (always ASCII here) becomes `List Char`; `replace_range(i..i+1, c)`
  becomes `List.set i c`.
* The random draws of `rand::Uniform(0, area).sample_iter.take(mine_count)`
  are passed in as an explicit `draws : List Nat` parameter.
* `self.cached.iter().next().unwrap()` picks an arbitrary element of a hash
  set; `Board.explore` therefore takes the picked element as an explicit
  `pick` parameter, constrained to be a member of the set wherever a real
  execution is modelled.
-/

namespace RMines

/-- `type Coord = (usize, usize)`. -/
abbrev Coord := Nat × Nat

/-- `2^64`, the modulus of release-mode `usize` arithmetic. -/
def USIZE : Nat := 18446744073709551616

/-- Release-mode (wrapping) `usize` subtraction `a - b`. -/
def usizeSub (a b : Nat) : Nat := (a % USIZE + (USIZE - b % USIZE)) % USIZE

/-- Release-mode (wrapping) `usize` multiplication `a * b` (a debug build
would panic on overflow instead). -/
def usizeMul (a b : Nat) : Nat := (a % USIZE) * (b % USIZE) % USIZE

/-- `enum BoardError`. -/
inductive BoardError where
  | NullArea
  | TooManyMines
deriving DecidableEq

/-- `enum ExploreResult`. -/
inductive ExploreResult where
  | Ok
  | EmptyCache
  | Mined
  | BoardClear
deriving DecidableEq

/-- `enum CacheResult`. -/
inductive CacheResult where
  | Ok
  | InvalidCoordinate
  | Clear
deriving DecidableEq

/-- `enum CellLabel`. -/
inductive CellLabel where
  | Clear
  | Flag
  | MinedNeighbors (n : Nat)
deriving DecidableEq

/-- `struct Board` of `game.rs`. -/
structure Board where
  rows : Nat
  cols : Nat
  area : Nat
  flagged : Finset Coord
  cached : Finset Coord
  clear : Finset Coord
  mines_at : Finset Coord
  board_string : List Char
  labels : List (Coord × Nat)
deriving DecidableEq

/-- Decimal digits of `n`, as produced by `usize::to_string()`. -/
def natChars (n : Nat) : List Char := Nat.toDigits 10 n

/-- `format!("{:width$}", n)`: the decimal digits of `n` right-aligned in a
field of `width` spaces (no truncation when the number is wider). -/
def padNum (width n : Nat) : List Char :=
  List.replicate (width - (natChars n).length) ' ' ++ natChars n

/-- `str::repeat`: `l` concatenated with itself `n` times. -/
def repeatList (l : List Char) : Nat → List Char
  | 0 => []
  | n + 1 => l ++ repeatList l n

/-- The header line of the board template built by `Board::new`: the first
column label padded to `(row_label_width + 1) + col_label_width`, then the
remaining column labels, each followed by `'|'`, then a newline. -/
def headerLine (rows cols : Nat) : List Char :=
  let row_label_width := (natChars rows).length + 1
  let col_label_width := (natChars cols).length + 2
  padNum (row_label_width + 1 + col_label_width) 1 ++ ['|'] ++
    (List.range' 2 (cols - 1)).flatMap (fun col => padNum col_label_width col ++ ['|']) ++
    ['\n']

/-- One row line of the board template: the row label, `'|'`, then `cols`
cells, each rendered as `format!("{:>width$}", '.')` with
`width = col_label_width + 1`, then a newline. -/
def rowLine (rows cols row : Nat) : List Char :=
  let row_label_width := (natChars rows).length + 1
  let col_label_width := (natChars cols).length + 2
  padNum row_label_width (row + 1) ++ ['|'] ++
    repeatList (List.replicate col_label_width ' ' ++ ['.']) cols ++ ['\n']

/-- The full blank board template built character-by-character by
`Board::new`. -/
def mkBoardString (rows cols : Nat) : List Char :=
  headerLine rows cols ++ (List.range rows).flatMap (rowLine rows cols)

/-- Byte indices of the `'.'` placeholders in the template, in order:
models `board_string.match_indices('.')`. -/
def dotIndices (s : List Char) : List Nat :=
  (s.enum.filter (fun p => decide (p.2 = '.'))).map Prod.fst

/-- The `labels` map of `Board::new`:
`match_indices('.').enumerate().map(|(n, (index, _))| ((n/cols, n%cols), index))`. -/
def mkLabels (s : List Char) (cols : Nat) : List (Coord × Nat) :=
  (dotIndices s).enum.map (fun p => (((p.1 / cols, p.1 % cols) : Coord), p.2))

/-- `HashMap::get` on the association list. -/
def lookupLabel (l : List (Coord × Nat)) (c : Coord) : Option Nat :=
  (l.find? (fun p => decide (p.1 = c))).map Prod.snd

/-- `Board::new`, with the stream of uniform samples over `[0, area)` made an
explicit parameter `draws` (the code takes `mine_count` samples from it). -/
def Board.new (rows cols mine_count : Nat) (draws : List Nat) :
    Except BoardError Board :=
  let board_area := usizeMul rows cols
  if board_area = 0 then
    Except.error BoardError.NullArea
  else if board_area ≤ mine_count then
    Except.error BoardError.TooManyMines
  else
    let board_string := mkBoardString rows cols
    let mines_at : Finset Coord :=
      ((draws.take mine_count).map (fun index => ((index / cols, index % cols) : Coord))).toFinset
    Except.ok {
      rows := rows
      cols := cols
      area := board_area
      flagged := ∅
      cached := ∅
      clear := ∅
      mines_at := mines_at
      board_string := board_string
      labels := mkLabels board_string cols }

/-- `Board::new(..).unwrap()`-style accessor used for concrete test boards. -/
def Board.newUnwrap (rows cols mine_count : Nat) (draws : List Nat) : Board :=
  match Board.new rows cols mine_count draws with
  | Except.ok b => b
  | Except.error _ =>
      { rows := 0, cols := 0, area := 0, flagged := ∅, cached := ∅, clear := ∅,
        mines_at := ∅, board_string := [], labels := [] }

/-- The 1-based → 0-based coordinate adjustment: both `Board::cache` and (for
UI calls) `Board::update_label` decrement each component of the user-supplied
coordinate before use (wrapping on underflow in release builds). -/
def uiAdjust (c : Coord) (from_ui : Bool) : Coord :=
  if from_ui then (usizeSub c.1 1, usizeSub c.2 1) else c

/-- `Board::cache`: decrements both components of the user-supplied (1-based)
coordinate, rejects the result if out of bounds, reports `Clear` if already
explored, and otherwise inserts it into the exploration cache. -/
def Board.cache (b : Board) (coord : Coord) : CacheResult × Board :=
  let c : Coord := uiAdjust coord true
  if ¬(c.1 < b.rows ∧ c.2 < b.cols) then
    (CacheResult.InvalidCoordinate, b)
  else if c ∈ b.clear then
    (CacheResult.Clear, b)
  else
    (CacheResult.Ok, { b with cached := insert c b.cached })

/-- `Board::reveal_mines`: every mine's label position is overwritten with
`'*'`. The Rust loop writes the mines one at a time in hash-set order; each
write targets that mine's own label index, so the net effect is the
order-independent simultaneous update modelled here. (A mine whose label
lookup failed would panic in Rust; the labels map is total on in-bounds
coordinates, see the C10 development below.) -/
def Board.reveal_mines (b : Board) : Board :=
  { b with board_string :=
      (List.range b.board_string.length).map fun i =>
        if ∃ m ∈ b.mines_at, lookupLabel b.labels m = some i then '*'
        else b.board_string.getD i ' ' }

/-- First character of `mine_count.to_string()` (total: the digit list is
never empty, so the default is never used). -/
def digitHead (n : Nat) : Char := (natChars n).headD '*'

/-- `Board::update_label`. For UI calls the coordinate is decremented
(1-based to 0-based, wrapping). Returns `false` iff the coordinate has no
label. The `Flag` label toggles membership in `flagged`, refusing to add a
new flag once `flagged.len()` has reached `mines_at.len()`. -/
def Board.update_label (b : Board) (at0 : Coord) (label : CellLabel)
    (from_ui : Bool) : Bool × Board :=
  let a : Coord := uiAdjust at0 from_ui
  match lookupLabel b.labels a with
  | some index =>
    match label with
    | CellLabel.Clear =>
        (true, { b with flagged := b.flagged.erase a,
                        board_string := b.board_string.set index ' ' })
    | CellLabel.MinedNeighbors mine_count =>
        (true, { b with flagged := b.flagged.erase a,
                        board_string := b.board_string.set index (digitHead mine_count) })
    | CellLabel.Flag =>
        if a ∈ b.flagged then
          (true, { b with flagged := b.flagged.erase a,
                          board_string := b.board_string.set index '.' })
        else if b.flagged.card < b.mines_at.card then
          (true, { b with flagged := insert a b.flagged,
                          board_string := b.board_string.set index '>' })
        else
          (true, b)
  | none => (false, b)

/-- The `neighborhood` array of `Board::explore`: the eight candidate
neighbor coordinates of `(row, col)`, each component `none` when clipped at
the grid edge (`checked_sub` above/left, explicit bound checks below/right). -/
def neighborhood (rows cols row col : Nat) : List (Option Nat × Option Nat) :=
  let above := if row = 0 then none else some (row - 1)
  let below := if row + 1 < rows then some (row + 1) else none
  let left := if col = 0 then none else some (col - 1)
  let right := if col + 1 < cols then some (col + 1) else none
  [(above, left), (above, some col), (above, right),
   (some row, left), (some row, right),
   (below, left), (below, some col), (below, right)]

/-- The `if let (Some _, Some _)` filter of the neighbor loop. -/
def toCoordOpt : Option Nat × Option Nat → Option Coord
  | (some r, some c) => some (r, c)
  | _ => none

/-- The neighbor loop of `Board::explore`: threads the `unexplored`
accumulator and the `mined` counter through the eight candidates. A valid
neighbor in `mines_at` bumps `mined`; otherwise, if no mine has been counted
yet and the neighbor is not in `clear`, it is pushed onto `unexplored`. -/
def scanNbhd (mines clear : Finset Coord) :
    List (Option Nat × Option Nat) → List Coord × Nat → List Coord × Nat
  | [], acc => acc
  | q :: rest, (unexp, mined) =>
    match toCoordOpt q with
    | some n =>
        if n ∈ mines then
          scanNbhd mines clear rest (unexp, mined + 1)
        else if mined = 0 ∧ n ∉ clear then
          scanNbhd mines clear rest (unexp ++ [n], mined)
        else
          scanNbhd mines clear rest (unexp, mined)
    | none => scanNbhd mines clear rest (unexp, mined)

/-- `Board::explore`. `pick` is the element produced by
`self.cached.iter().next().unwrap()`; it is unused when the cache is empty. -/
def Board.explore (b : Board) (pick : Coord) : ExploreResult × Board :=
  if b.cached = ∅ then
    if usizeSub b.area b.clear.card = b.mines_at.card then
      (ExploreResult.BoardClear, b)
    else
      (ExploreResult.EmptyCache, b)
  else
    let row := pick.1
    let col := pick.2
    let b1 := { b with cached := b.cached.erase (row, col) }
    if (row, col) ∈ b1.mines_at then
      (ExploreResult.Mined, b1.reveal_mines)
    else
      let b2 := { b1 with clear := insert (row, col) b1.clear }
      let scan := scanNbhd b2.mines_at b2.clear
        (neighborhood b2.rows b2.cols row col) ([], 0)
      if 0 < scan.2 then
        (ExploreResult.Ok,
          (b2.update_label (row, col) (CellLabel.MinedNeighbors scan.2) false).2)
      else
        let b3 := (b2.update_label (row, col) CellLabel.Clear false).2
        (ExploreResult.Ok, { b3 with cached := b3.cached ∪ scan.1.toFinset })

/-! ### Basic arithmetic and preservation lemmas -/

lemma usizeSub_eq_sub {a b : Nat} (hb : b ≤ a) (ha : a < USIZE) :
    usizeSub a b = a - b := by
  have h1 : a % USIZE = a := Nat.mod_eq_of_lt ha
  have h2 : b % USIZE = b := Nat.mod_eq_of_lt (lt_of_le_of_lt hb ha)
  have h3 : a + (USIZE - b) = (a - b) + USIZE := by
    have : b ≤ USIZE := le_of_lt (lt_of_le_of_lt hb ha)
    omega
  rw [usizeSub, h1, h2, h3, Nat.add_mod_right]
  exact Nat.mod_eq_of_lt (lt_of_le_of_lt (Nat.sub_le a b) ha)

lemma usizeSub_zero_one : usizeSub 0 1 = USIZE - 1 := by
  rw [usizeSub, USIZE]

lemma update_label_same (b : Board) (a0 : Coord) (l : CellLabel) (f : Bool) :
    ((b.update_label a0 l f).2).rows = b.rows ∧
    ((b.update_label a0 l f).2).cols = b.cols ∧
    ((b.update_label a0 l f).2).area = b.area ∧
    ((b.update_label a0 l f).2).cached = b.cached ∧
    ((b.update_label a0 l f).2).clear = b.clear ∧
    ((b.update_label a0 l f).2).mines_at = b.mines_at ∧
    ((b.update_label a0 l f).2).labels = b.labels := by
  simp only [Board.update_label]
  split
  · split <;> first
      | exact ⟨rfl, rfl, rfl, rfl, rfl, rfl, rfl⟩
      | (split_ifs <;> exact ⟨rfl, rfl, rfl, rfl, rfl, rfl, rfl⟩)
  · exact ⟨rfl, rfl, rfl, rfl, rfl, rfl, rfl⟩

lemma update_label_flagged_le (b : Board) (a0 : Coord) (l : CellLabel) (f : Bool)
    (h : b.flagged.card ≤ b.mines_at.card) :
    ((b.update_label a0 l f).2).flagged.card ≤ b.mines_at.card := by
  simp only [Board.update_label]
  split
  · split <;> first
      | exact le_trans Finset.card_erase_le h
      | (split_ifs with h1 h2 <;> first
          | exact le_trans Finset.card_erase_le h
          | exact le_trans (Finset.card_insert_le _ _) (by omega)
          | exact h)
  · exact h

lemma update_label_flag_at_cap (b : Board) (c : Coord) (f : Bool)
    (h : b.flagged.card = b.mines_at.card) :
    ((b.update_label c CellLabel.Flag f).2).flagged ⊆ b.flagged := by
  simp only [Board.update_label]
  split
  · split_ifs with h1 h2
    · exact Finset.erase_subset _ _
    · exact absurd h2 (by omega)
    · exact subset_rfl
  · exact subset_rfl

lemma reveal_mines_same (b : Board) :
    (b.reveal_mines).rows = b.rows ∧
    (b.reveal_mines).cols = b.cols ∧
    (b.reveal_mines).area = b.area ∧
    (b.reveal_mines).flagged = b.flagged ∧
    (b.reveal_mines).cached = b.cached ∧
    (b.reveal_mines).clear = b.clear ∧
    (b.reveal_mines).mines_at = b.mines_at ∧
    (b.reveal_mines).labels = b.labels :=
  ⟨rfl, rfl, rfl, rfl, rfl, rfl, rfl, rfl⟩

lemma cache_same (b : Board) (coord : Coord) :
    ((b.cache coord).2).rows = b.rows ∧
    ((b.cache coord).2).cols = b.cols ∧
    ((b.cache coord).2).area = b.area ∧
    ((b.cache coord).2).flagged = b.flagged ∧
    ((b.cache coord).2).clear = b.clear ∧
    ((b.cache coord).2).mines_at = b.mines_at ∧
    ((b.cache coord).2).labels = b.labels ∧
    ((b.cache coord).2).board_string = b.board_string := by
  simp only [Board.cache]
  split_ifs <;> exact ⟨rfl, rfl, rfl, rfl, rfl, rfl, rfl, rfl⟩

lemma explore_same (b : Board) (p : Coord) :
    ((b.explore p).2).rows = b.rows ∧
    ((b.explore p).2).cols = b.cols ∧
    ((b.explore p).2).area = b.area ∧
    ((b.explore p).2).mines_at = b.mines_at ∧
    ((b.explore p).2).labels = b.labels := by
  simp only [Board.explore]
  split
  · split <;> exact ⟨rfl, rfl, rfl, rfl, rfl⟩
  · split
    · exact ⟨rfl, rfl, rfl, rfl, rfl⟩
    · split
      · obtain ⟨h1, h2, h3, _, _, h6, h7⟩ := update_label_same _ _ _ _
        exact ⟨h1, h2, h3, h6, h7⟩
      · obtain ⟨h1, h2, h3, _, _, h6, h7⟩ := update_label_same _ _ _ _
        exact ⟨h1, h2, h3, h6, h7⟩

lemma explore_clear_cases (b : Board) (p : Coord) :
    ((b.explore p).2).clear = b.clear ∨
    (((b.explore p).2).clear = insert p b.clear ∧ p ∉ b.mines_at) := by
  simp only [Board.explore]
  split
  · split <;> exact Or.inl rfl
  · split
    · exact Or.inl rfl
    · rename_i hm
      split
      · refine Or.inr ⟨?_, hm⟩
        obtain ⟨_, _, _, _, h5, _, _⟩ := update_label_same _ _ _ _
        exact h5
      · refine Or.inr ⟨?_, hm⟩
        obtain ⟨_, _, _, _, h5, _, _⟩ := update_label_same _ _ _ _
        exact h5

lemma explore_flagged_le (b : Board) (p : Coord)
    (h : b.flagged.card ≤ b.mines_at.card) :
    ((b.explore p).2).flagged.card ≤ b.mines_at.card := by
  simp only [Board.explore]
  split
  · split <;> exact h
  · split
    · exact h
    · split
      · exact update_label_flagged_le _ _ _ _ h
      · exact update_label_flagged_le _ _ _ _ h

/-! ### Neighbor-scan lemmas -/

lemma scanNbhd_snd (m cl : Finset Coord) (l : List (Option Nat × Option Nat))
    (u : List Coord) (k : Nat) :
    (scanNbhd m cl l (u, k)).2 =
      k + (l.filterMap toCoordOpt).countP (fun q => decide (q ∈ m)) := by
  induction l generalizing u k with
  | nil => simp [scanNbhd]
  | cons q rest ih =>
    rcases hq : toCoordOpt q with _ | n
    · rw [scanNbhd, hq, List.filterMap_cons_none hq, ih]
    · rw [scanNbhd, hq, List.filterMap_cons_some hq]
      dsimp only
      by_cases hm : n ∈ m
      · rw [if_pos hm, ih, List.countP_cons]
        simp [hm]
        omega
      · rw [if_neg hm]
        by_cases hc : k = 0 ∧ n ∉ cl
        · rw [if_pos hc, ih, List.countP_cons]
          simp [hm]
        · rw [if_neg hc, ih, List.countP_cons]
          simp [hm]

lemma scanNbhd_fst (m cl : Finset Coord) (l : List (Option Nat × Option Nat))
    (u : List Coord)
    (h : ∀ q ∈ l.filterMap toCoordOpt, q ∉ m) :
    (scanNbhd m cl l (u, 0)).1 =
      u ++ (l.filterMap toCoordOpt).filter (fun q => decide (q ∉ cl)) := by
  induction l generalizing u with
  | nil => simp [scanNbhd]
  | cons q rest ih =>
    rcases hq : toCoordOpt q with _ | n
    · rw [scanNbhd, hq, List.filterMap_cons_none hq]
      exact ih u (by intro x hx; exact h x (by rw [List.filterMap_cons_none hq]; exact hx))
    · have hn : n ∉ m := h n (by rw [List.filterMap_cons_some hq]; exact List.mem_cons_self _ _)
      have hrest : ∀ x ∈ rest.filterMap toCoordOpt, x ∉ m := by
        intro x hx
        exact h x (by rw [List.filterMap_cons_some hq]; exact List.mem_cons_of_mem _ hx)
      rw [scanNbhd, hq]
      dsimp only
      rw [if_neg hn, List.filterMap_cons_some hq]
      by_cases hc : n ∈ cl
      · rw [if_neg (by simp [hc]), ih u hrest, List.filter_cons]
        simp [hc]
      · rw [if_pos ⟨rfl, hc⟩, ih (u ++ [n]) hrest, List.filter_cons]
        simp [hc]

/-! ### Empty- and non-empty-frontier behavior of `explore` -/

lemma explore_empty (b : Board) (p : Coord) (hc : b.cached = ∅) :
    (b.explore p).2 = b ∧
    (b.explore p).1 = (if usizeSub b.area b.clear.card = b.mines_at.card
      then ExploreResult.BoardClear else ExploreResult.EmptyCache) := by
  simp only [Board.explore]
  rw [if_pos hc]
  split_ifs <;> exact ⟨rfl, rfl⟩

lemma explore_nonempty_result (b : Board) (p : Coord) (hc : b.cached ≠ ∅) :
    (b.explore p).1 = ExploreResult.Mined ∨ (b.explore p).1 = ExploreResult.Ok := by
  simp only [Board.explore]
  rw [if_neg hc]
  split
  · exact Or.inl rfl
  · split
    · exact Or.inr rfl
    · exact Or.inr rfl

/-- Concrete board used to witness the empty-frontier claim: a freshly
constructed `1 × 2` board with one mine at `(0, 1)`. -/
def demoC5 : Board := Board.newUnwrap 1 2 1 [1]

/-- C5: `Step()` (`Board::explore`) returns `BoardClear` iff the frontier is
empty and `area - |explored| = |mines_at|`; with an empty frontier and the
equality failing it returns `EmptyFrontier` (`EmptyCache`); in both
empty-frontier cases no state is mutated. Stated under the reachable-state
facts `|explored| ≤ area < 2^64`, where the code's `usize` subtraction is
ordinary truncated subtraction. -/
theorem C5_boardClear_iff (b : Board) (pick : Coord)
    (hcard : b.clear.card ≤ b.area) (harea : b.area < USIZE) :
    ((b.explore pick).1 = ExploreResult.BoardClear ↔
      (b.cached = ∅ ∧ b.area - b.clear.card = b.mines_at.card)) ∧
    (b.cached = ∅ → b.area - b.clear.card ≠ b.mines_at.card →
      (b.explore pick).1 = ExploreResult.EmptyCache) ∧
    (b.cached = ∅ → (b.explore pick).2 = b) := by
  have hsub : usizeSub b.area b.clear.card = b.area - b.clear.card :=
    usizeSub_eq_sub hcard harea
  by_cases hc : b.cached = ∅
  · obtain ⟨hstate, hres⟩ := explore_empty b pick hc
    rw [hsub] at hres
    by_cases he : b.area - b.clear.card = b.mines_at.card
    · rw [if_pos he] at hres
      exact ⟨by simp [hres, hc, he], fun _ hne => absurd he hne, fun _ => hstate⟩
    · rw [if_neg he] at hres
      refine ⟨?_, fun _ _ => hres, fun _ => hstate⟩
      rw [hres]
      constructor
      · intro h
        cases h
      · intro h
        exact absurd h.2 he
  · refine ⟨?_, fun hx => absurd hx hc, fun hx => absurd hx hc⟩
    constructor
    · intro hx
      rcases explore_nonempty_result b pick hc with h | h <;> rw [h] at hx <;> cases hx
    · intro hx
      exact absurd hx.1 hc

/-- Witness for C5 at the concrete board `demoC5` (empty frontier, one
unexplored non-mined cell left, so the step reports `EmptyCache`). -/
theorem C5_witness :
    ((demoC5.explore (0, 0)).1 = ExploreResult.BoardClear ↔
      (demoC5.cached = ∅ ∧ demoC5.area - demoC5.clear.card = demoC5.mines_at.card)) ∧
    (demoC5.cached = ∅ → demoC5.area - demoC5.clear.card ≠ demoC5.mines_at.card →
      (demoC5.explore (0, 0)).1 = ExploreResult.EmptyCache) ∧
    (demoC5.cached = ∅ → (demoC5.explore (0, 0)).2 = demoC5) :=
  C5_boardClear_iff demoC5 (0, 0) (by decide) (by decide)

/-! ### Construction claims: C8 and C9 -/

/-- Small facts about the wrapped area product. -/
lemma usizeMul_ne_zero_pos {a b : Nat} (h : usizeMul a b ≠ 0) : 0 < a ∧ 0 < b := by
  rcases Nat.eq_zero_or_pos a with ha | ha
  · exact absurd (by simp [usizeMul, ha]) h
  rcases Nat.eq_zero_or_pos b with hb | hb
  · exact absurd (by simp [usizeMul, hb]) h
  · exact ⟨ha, hb⟩

lemma usizeMul_eq_mul {a b : Nat} (h : a * b < USIZE) : usizeMul a b = a * b := by
  rcases Nat.eq_zero_or_pos a with ha | ha
  · simp [usizeMul, ha]
  rcases Nat.eq_zero_or_pos b with hb | hb
  · simp [usizeMul, hb]
  · have ha' : a < USIZE :=
      lt_of_le_of_lt (le_trans (Nat.le_mul_of_pos_right a hb) (le_refl _)) h
    have hb' : b < USIZE :=
      lt_of_le_of_lt (le_trans (Nat.le_mul_of_pos_left b ha) (le_refl _)) h
    rw [usizeMul, Nat.mod_eq_of_lt ha', Nat.mod_eq_of_lt hb', Nat.mod_eq_of_lt h]

/-- C8 counterexample: `Construct(2^32, 2^32, 5)` has `rows * cols > 0` and
`mineCount < rows * cols`, so by the claim it must succeed; in the release
build the `usize` product wraps to `0` and construction reports `NullArea`
before anything is allocated (a debug build would panic on the overflowing
multiplication). -/
theorem C8_counterexample :
    5 < 4294967296 * 4294967296 ∧
    Board.new 4294967296 4294967296 5 [] = Except.error BoardError.NullArea ∧
    ¬∃ b, Board.new 4294967296 4294967296 5 [] = Except.ok b := by
  have h2 : Board.new 4294967296 4294967296 5 [] =
      Except.error BoardError.NullArea := by rfl
  refine ⟨by norm_num, h2, ?_⟩
  rintro ⟨b, hb⟩
  rw [h2] at hb
  cases hb

/-- C8 (amended): `Construct` compares the mine count against the
release-mode-wrapped area `rows * cols mod 2^64`: it fails with `NullArea`
exactly when that wrapped product is `0` (in particular for genuinely empty
boards, the NullArea check taking precedence over the mine-count check),
fails with `TooManyMines` exactly when the wrapped product is positive but
`mine_count ≥` it, and otherwise succeeds with a fully constructed board;
whenever the true product fits in a `usize`, the wrapped product is the true
`rows * cols`, giving the claim's classification. -/
theorem C8_construct_amended (rows cols mc : Nat) (draws : List Nat) :
    (Board.new rows cols mc draws = Except.error BoardError.NullArea ↔
      usizeMul rows cols = 0) ∧
    (Board.new rows cols mc draws = Except.error BoardError.TooManyMines ↔
      (usizeMul rows cols ≠ 0 ∧ usizeMul rows cols ≤ mc)) ∧
    (mc < usizeMul rows cols ↔ ∃ b, Board.new rows cols mc draws = Except.ok b) ∧
    (∀ b, Board.new rows cols mc draws = Except.ok b →
      b.rows = rows ∧ b.cols = cols ∧ b.area = usizeMul rows cols ∧
      b.flagged = ∅ ∧ b.cached = ∅ ∧ b.clear = ∅) ∧
    (rows * cols < USIZE → usizeMul rows cols = rows * cols) := by
  have hfit : rows * cols < USIZE → usizeMul rows cols = rows * cols :=
    fun h => usizeMul_eq_mul h
  simp only [Board.new]
  by_cases h0 : usizeMul rows cols = 0
  · rw [if_pos h0]
    refine ⟨by simp [h0], ?_, ?_, ⟨(by intro b hb; cases hb), hfit⟩⟩
    · constructor
      · intro h; cases h
      · rintro ⟨h1, _⟩; exact absurd h0 h1
    · constructor
      · intro h; omega
      · rintro ⟨b, hb⟩; cases hb
  · rw [if_neg h0]
    by_cases hm : usizeMul rows cols ≤ mc
    · rw [if_pos hm]
      refine ⟨?_, by simp [h0, hm], ?_, ⟨(by intro b hb; cases hb), hfit⟩⟩
      · constructor
        · intro h; simp at h
        · intro h; exact absurd h h0
      · constructor
        · intro h; omega
        · rintro ⟨b, hb⟩; cases hb
    · rw [if_neg hm]
      refine ⟨?_, ?_, ?_, ?_, hfit⟩
      · constructor
        · intro h; cases h
        · intro h; exact absurd h h0
      · constructor
        · intro h; cases h
        · rintro ⟨_, h⟩; exact absurd h hm
      · exact ⟨fun _ => ⟨_, rfl⟩, fun _ => by omega⟩
      · intro b hb
        obtain rfl : _ = b := (Except.ok.injEq _ _).mp hb
        exact ⟨rfl, rfl, rfl, rfl, rfl, rfl⟩

/-- Witness for the amended C8 at concrete parameters: a degenerate `0 × 5`
request, for which construction reports `NullArea`. -/
theorem C8_witness :
    (Board.new 0 5 3 [] = Except.error BoardError.NullArea ↔
      usizeMul 0 5 = 0) ∧
    (Board.new 0 5 3 [] = Except.error BoardError.TooManyMines ↔
      (usizeMul 0 5 ≠ 0 ∧ usizeMul 0 5 ≤ 3)) ∧
    (3 < usizeMul 0 5 ↔ ∃ b, Board.new 0 5 3 [] = Except.ok b) ∧
    (∀ b, Board.new 0 5 3 [] = Except.ok b →
      b.rows = 0 ∧ b.cols = 5 ∧ b.area = usizeMul 0 5 ∧
      b.flagged = ∅ ∧ b.cached = ∅ ∧ b.clear = ∅) ∧
    (0 * 5 < USIZE → usizeMul 0 5 = 0 * 5) :=
  C8_construct_amended 0 5 3 []

/-- C9: on a successful construction from draws taken uniformly in
`[0, rows * cols)`, the realized mine set has at most `mine_count` elements
(duplicates collapse), and every mine is in bounds and of the form
`(index / cols, index % cols)` for some sampled index. -/
theorem C9_mines (rows cols mc : Nat) (draws : List Nat) (b : Board)
    (hok : Board.new rows cols mc draws = Except.ok b)
    (hdraws : ∀ d ∈ draws, d < rows * cols) :
    b.mines_at.card ≤ mc ∧
    ∀ m ∈ b.mines_at, m.1 < rows ∧ m.2 < cols ∧
      ∃ index, index < rows * cols ∧ m = (index / cols, index % cols) := by
  simp only [Board.new] at hok
  split_ifs at hok with h0 hm
  obtain rfl : _ = b := (Except.ok.injEq _ _).mp hok
  have hcols : 0 < cols := (usizeMul_ne_zero_pos h0).2
  constructor
  · refine le_trans (List.toFinset_card_le _) ?_
    rw [List.length_map]
    exact List.length_take_le _ _
  · intro m hmem
    rw [List.mem_toFinset, List.mem_map] at hmem
    obtain ⟨d, hd, rfl⟩ := hmem
    have hdb : d < rows * cols := hdraws d (List.take_subset _ _ hd)
    refine ⟨?_, Nat.mod_lt _ hcols, d, hdb, rfl⟩
    rw [Nat.div_lt_iff_lt_mul hcols]
    exact hdb

/-- Concrete board used to witness C9: `2 × 2`, one requested mine, sampled
index `3`, realized mine `(1, 1)`. -/
def demoC9 : Board := Board.newUnwrap 2 2 1 [3]

/-- Witness for C9 at the concrete construction `Board.new 2 2 1 [3]`. -/
theorem C9_witness :
    demoC9.mines_at.card ≤ 1 ∧
    ∀ m ∈ demoC9.mines_at, m.1 < 2 ∧ m.2 < 2 ∧
      ∃ index, index < 2 * 2 ∧ m = (index / 2, index % 2) :=
  C9_mines 2 2 1 [3] demoC9 (by rfl) (by decide)

/-! ### C4: Enqueue coordinate handling -/

/-- Elimination of a successful construction into its field equations. -/
lemma new_ok_elim (rows cols mc : Nat) (draws : List Nat) (b : Board)
    (hok : Board.new rows cols mc draws = Except.ok b) :
    b.rows = rows ∧ b.cols = cols ∧ b.area = usizeMul rows cols ∧ b.flagged = ∅ ∧
    b.cached = ∅ ∧ b.clear = ∅ ∧
    b.mines_at =
      ((draws.take mc).map (fun i => ((i / cols, i % cols) : Coord))).toFinset ∧
    b.board_string = mkBoardString rows cols ∧
    b.labels = mkLabels (mkBoardString rows cols) cols ∧
    usizeMul rows cols ≠ 0 ∧ mc < usizeMul rows cols := by
  simp only [Board.new] at hok
  split_ifs at hok with h0 hm
  obtain rfl : _ = b := (Except.ok.injEq _ _).mp hok
  exact ⟨rfl, rfl, rfl, rfl, rfl, rfl, rfl, rfl, rfl, h0, by omega⟩

/-- Concrete `1 × 1` board with no mines, for the C4 counterexample. -/
def demoC4 : Board := Board.newUnwrap 1 1 0 []

/-- C4 counterexample: on a `1 × 1` board, the 0-based coordinate `(1, 1)`
has row `1 ≥ rows = 1`, so by the claim Enqueue must report
`InvalidCoordinate` without mutating state; the code instead treats the input
as 1-based, maps it to `(0, 0)`, accepts it and mutates the frontier — while
the in-bounds 0-based coordinate `(0, 0)` is rejected. -/
theorem C4_counterexample :
    (demoC4.cache (1, 1)).1 = CacheResult.Ok ∧
    (demoC4.cache (1, 1)).1 ≠ CacheResult.InvalidCoordinate ∧
    (demoC4.cache (1, 1)).2 ≠ demoC4 ∧
    (demoC4.cache (0, 0)).1 = CacheResult.InvalidCoordinate :=
  ⟨by decide, by decide, by decide, by decide⟩

/-- C4 (amended): `Board::cache` interprets its argument as a 1-based
coordinate. It decrements each component (wrapping at zero in release
builds); it reports `InvalidCoordinate` without mutating state when the
decremented coordinate is out of bounds — in particular whenever a component
of the input is zero, since that component wraps to `2^64 - 1` — reports
`Clear` (AlreadyClear) without mutating state when the decremented coordinate
is already explored, and otherwise inserts the decremented coordinate into
the frontier and reports `Ok` (Accepted). -/
theorem C4_enqueue_amended (b : Board) (coord : Coord)
    (hrows : b.rows < USIZE) (hcols : b.cols < USIZE) :
    (¬((uiAdjust coord true).1 < b.rows ∧ (uiAdjust coord true).2 < b.cols) →
      b.cache coord = (CacheResult.InvalidCoordinate, b)) ∧
    (coord.1 = 0 → b.cache coord = (CacheResult.InvalidCoordinate, b)) ∧
    (coord.2 = 0 → b.cache coord = (CacheResult.InvalidCoordinate, b)) ∧
    ((uiAdjust coord true).1 < b.rows → (uiAdjust coord true).2 < b.cols →
      uiAdjust coord true ∈ b.clear → b.cache coord = (CacheResult.Clear, b)) ∧
    ((uiAdjust coord true).1 < b.rows → (uiAdjust coord true).2 < b.cols →
      uiAdjust coord true ∉ b.clear →
      b.cache coord =
        (CacheResult.Ok, { b with cached := insert (uiAdjust coord true) b.cached })) := by
  have hz1 : coord.1 = 0 → ¬((uiAdjust coord true).1 < b.rows) := by
    intro h0
    simp only [uiAdjust, if_pos, h0, usizeSub_zero_one]
    simp only [USIZE] at hrows ⊢
    omega
  have hz2 : coord.2 = 0 → ¬((uiAdjust coord true).2 < b.cols) := by
    intro h0
    simp only [uiAdjust, if_pos, h0, usizeSub_zero_one]
    simp only [USIZE] at hcols ⊢
    omega
  simp only [Board.cache]
  by_cases hv : (uiAdjust coord true).1 < b.rows ∧ (uiAdjust coord true).2 < b.cols
  · rw [if_neg (not_not_intro hv)]
    refine ⟨fun h => absurd hv h, fun h0 => absurd hv.1 (hz1 h0),
      fun h0 => absurd hv.2 (hz2 h0), fun _ _ hm => ?_, fun _ _ hm => ?_⟩
    · rw [if_pos hm]
    · rw [if_neg hm]
  · rw [if_pos hv]
    exact ⟨fun _ => rfl, fun _ => rfl, fun _ => rfl,
      fun h1 h2 _ => absurd ⟨h1, h2⟩ hv, fun h1 h2 _ => absurd ⟨h1, h2⟩ hv⟩

/-- Witness for the amended C4 at the concrete board `demoC4`: the 1-based
coordinate `(1, 1)` adjusts to `(0, 0)`, which is unexplored, so it is
accepted into the frontier. -/
theorem C4_witness :
    (¬((uiAdjust (1, 1) true).1 < demoC4.rows ∧ (uiAdjust (1, 1) true).2 < demoC4.cols) →
      demoC4.cache (1, 1) = (CacheResult.InvalidCoordinate, demoC4)) ∧
    ((1, 1).1 = 0 → demoC4.cache (1, 1) = (CacheResult.InvalidCoordinate, demoC4)) ∧
    ((1, 1).2 = 0 → demoC4.cache (1, 1) = (CacheResult.InvalidCoordinate, demoC4)) ∧
    ((uiAdjust (1, 1) true).1 < demoC4.rows → (uiAdjust (1, 1) true).2 < demoC4.cols →
      uiAdjust (1, 1) true ∈ demoC4.clear → demoC4.cache (1, 1) = (CacheResult.Clear, demoC4)) ∧
    ((uiAdjust (1, 1) true).1 < demoC4.rows → (uiAdjust (1, 1) true).2 < demoC4.cols →
      uiAdjust (1, 1) true ∉ demoC4.clear →
      demoC4.cache (1, 1) =
        (CacheResult.Ok, { demoC4 with cached := insert (uiAdjust (1, 1) true) demoC4.cached })) :=
  C4_enqueue_amended demoC4 (1, 1) (by decide) (by decide)

/-! ### Reachable board states -/

/-- The boards reachable through the public interface: a successful
construction followed by any sequence of `cache` (Enqueue), `explore` (Step —
with the popped element actually a member of the frontier, as produced by
`iter().next().unwrap()`) and UI flag toggles (`update_label _ Flag true`,
the engine's ToggleFlag). -/
inductive Reach : Board → Prop where
  | init (rows cols mc : Nat) (draws : List Nat) (b : Board) :
      Board.new rows cols mc draws = Except.ok b → Reach b
  | enqueue (b : Board) (c : Coord) : Reach b → Reach (b.cache c).2
  | step (b : Board) (p : Coord) : Reach b →
      (b.cached ≠ ∅ → p ∈ b.cached) → Reach (b.explore p).2
  | flag (b : Board) (c : Coord) : Reach b →
      Reach (b.update_label c CellLabel.Flag true).2

/-! ### C1: explored cells are never mined -/

/-- Board used for the C1 counterexample and witness: a `1 × 2` board with a
mine at `(0, 1)`, whose frontier holds exactly that mined cell. -/
def demoC1 : Board := ((Board.newUnwrap 1 2 1 [1]).cache (1, 2)).2

/-- The result of popping the mined cell on `demoC1`. -/
def demoC1res : ExploreResult × Board := demoC1.explore (0, 1)

/-- C1 counterexample: the step that pops the mined cell `(0, 1)` returns
`Mined`, but `explored ∩ mines_at` is empty afterwards — not the singleton
`{(0, 1)}` the claim requires — because `Board::explore` checks `mines_at`
before inserting the popped coordinate into `clear`. -/
theorem C1_counterexample :
    demoC1res.1 = ExploreResult.Mined ∧
    demoC1res.2.clear ∩ demoC1res.2.mines_at = ∅ ∧
    demoC1res.2.clear ∩ demoC1res.2.mines_at ≠ {((0 : Nat), (1 : Nat))} :=
  ⟨by decide, by decide, by decide⟩

/-- C1 (amended): after construction and any sequence of Enqueue / Step /
ToggleFlag calls, `explored ∩ mines_at = ∅` — including immediately after a
step that returned `Mined`, since the mined coordinate is never inserted into
`clear`. -/
theorem C1_explored_mines_disjoint (b : Board) (h : Reach b) :
    b.clear ∩ b.mines_at = ∅ := by
  induction h with
  | init rows cols mc draws b hok =>
      obtain ⟨_, _, _, _, _, hclear, _, _, _, _, _⟩ := new_ok_elim _ _ _ _ _ hok
      rw [hclear, Finset.empty_inter]
  | enqueue b c _ ih =>
      obtain ⟨_, _, _, _, hclear, hmines, _, _⟩ := cache_same b c
      rw [hclear, hmines]
      exact ih
  | step b p _ _ ih =>
      obtain ⟨_, _, _, hmines, _⟩ := explore_same b p
      rcases explore_clear_cases b p with hcl | ⟨hcl, hnm⟩
      · rw [hcl, hmines]
        exact ih
      · rw [hcl, hmines, Finset.insert_inter_of_not_mem hnm]
        exact ih
  | flag b c _ ih =>
      obtain ⟨_, _, _, _, hclear, hmines, _⟩ := update_label_same b c CellLabel.Flag true
      rw [hclear, hmines]
      exact ih

/-- Witness for the amended C1: immediately after the `Mined` step on
`demoC1`, the intersection is (still) empty. -/
theorem C1_witness : demoC1res.2.clear ∩ demoC1res.2.mines_at = ∅ :=
  C1_explored_mines_disjoint _
    (Reach.step demoC1 (0, 1)
      (Reach.enqueue (Board.newUnwrap 1 2 1 [1]) (1, 2)
        (Reach.init 1 2 1 [1] _ (by rfl)))
      (fun _ => by decide))

/-! ### C6: the flag cap -/

/-- Concrete `2 × 2` board with one mine at `(1, 1)`, shared by several
witnesses. -/
def demoBoard22 : Board := Board.newUnwrap 2 2 1 [3]

/-- C6: on any reachable board, `|flagged| ≤ |mines_at|`; moreover a
flag-toggle issued when the cap is reached adds no new flag (the resulting
flag set is contained in the old one). -/
theorem C6_flag_cap (b : Board) (h : Reach b) :
    b.flagged.card ≤ b.mines_at.card ∧
    ∀ c : Coord, b.flagged.card = b.mines_at.card →
      ((b.update_label c CellLabel.Flag true).2).flagged ⊆ b.flagged := by
  refine ⟨?_, fun c hcap => update_label_flag_at_cap b c true hcap⟩
  induction h with
  | init rows cols mc draws b hok =>
      obtain ⟨_, _, _, hflag, _, _, _, _, _, _, _⟩ := new_ok_elim _ _ _ _ _ hok
      rw [hflag]
      simp
  | enqueue b c _ ih =>
      obtain ⟨_, _, _, hflag, _, hmines, _, _⟩ := cache_same b c
      rw [hflag, hmines]
      exact ih
  | step b p _ _ ih =>
      obtain ⟨_, _, _, hmines, _⟩ := explore_same b p
      rw [hmines]
      exact explore_flagged_le b p ih
  | flag b c _ ih =>
      obtain ⟨_, _, _, _, _, hmines, _⟩ := update_label_same b c CellLabel.Flag true
      rw [hmines]
      exact update_label_flagged_le b c CellLabel.Flag true ih

/-- Witness for C6 at the freshly constructed `demoBoard22`. -/
theorem C6_witness :
    demoBoard22.flagged.card ≤ demoBoard22.mines_at.card ∧
    ∀ c : Coord, demoBoard22.flagged.card = demoBoard22.mines_at.card →
      ((demoBoard22.update_label c CellLabel.Flag true).2).flagged ⊆ demoBoard22.flagged :=
  C6_flag_cap demoBoard22 (Reach.init 2 2 1 [3] _ (by rfl))

/-! ### C2: hash-order frontier removal is observable -/

/-- Board used for the C2 demonstration: `1 × 3` with a mine at `(0, 2)` and
frontier `{(0, 0), (0, 2)}`. -/
def demoC2 : Board := (((Board.newUnwrap 1 3 1 [2]).cache (1, 1)).2.cache (1, 3)).2

/-- C2: `Board::explore` pops the frontier via `HashSet::iter().next()`,
whose order depends on the process-random hash state. Both `(0, 0)` and
`(0, 2)` are legitimate picks from the same frontier, yet one yields `Ok`
and the other ends the game with `Mined` — so the signal sequence is not a
function of the mine layout and call sequence, contradicting the required
determinism. -/
theorem C2_code_bug :
    (0, 0) ∈ demoC2.cached ∧ (0, 2) ∈ demoC2.cached ∧
    (demoC2.explore (0, 0)).1 = ExploreResult.Ok ∧
    (demoC2.explore (0, 2)).1 = ExploreResult.Mined ∧
    (demoC2.explore (0, 0)).1 ≠ (demoC2.explore (0, 2)).1 :=
  ⟨by decide, by decide, by decide, by decide, by decide⟩

/-! ### C7: flagging is not disabled on explored cells -/

/-- `1 × 2` board with a mine at `(0, 1)` and `(0, 0)` enqueued. -/
def demoC7a : Board := ((Board.newUnwrap 1 2 1 [1]).cache (1, 1)).2

/-- The board after exploring the safe cell `(0, 0)` (labelled `'1'`). -/
def demoC7b : Board := (demoC7a.explore (0, 0)).2

/-- The board after toggling a flag on the already-explored `(0, 0)`. -/
def demoC7c : Board := (demoC7b.update_label (1, 1) CellLabel.Flag true).2

/-- C7: toggling a flag on the explored cell `(0, 0)` is not a no-op: the
`Flag` arm of `Board::update_label` never consults `clear` (despite the
code's own comment "Do nothing if the parcel has already been explored"), so
the explored cell is inserted into `flagged` and its revealed label is
overwritten with `'>'`, leaving a coordinate that is simultaneously explored
and flagged. -/
theorem C7_code_bug :
    (0, 0) ∈ demoC7b.clear ∧
    (demoC7b.update_label (1, 1) CellLabel.Flag true).1 = true ∧
    (0, 0) ∈ demoC7c.flagged ∧
    demoC7c.flagged ≠ demoC7b.flagged ∧
    demoC7c.board_string ≠ demoC7b.board_string ∧
    ¬(demoC7c.clear ∩ demoC7c.flagged = ∅) :=
  ⟨by decide, by decide, by decide, by decide, by decide, by decide⟩

/-! ### C3: the neighborhood scan -/

/-- The in-bounds coordinates passing the `if let (Some _, Some _)` filter
over the `neighborhood` array. -/
def validNbrs (rows cols row col : Nat) : List Coord :=
  (neighborhood rows cols row col).filterMap toCoordOpt

/-- `q` is one of the up-to-8 neighbors of `p` (Chebyshev distance exactly
one, before bounds clipping). -/
def isNbr (p q : Coord) : Prop :=
  q ≠ p ∧ q.1 ≤ p.1 + 1 ∧ p.1 ≤ q.1 + 1 ∧ q.2 ≤ p.2 + 1 ∧ p.2 ≤ q.2 + 1

instance (p q : Coord) : Decidable (isNbr p q) := by
  unfold isNbr
  infer_instance

/-- The in-bounds 8-neighborhood of `p`, clipped at the grid edges: the
specification's notion of neighborhood, independent of the code's
`neighborhood` array. -/
def specNbhd (rows cols : Nat) (p : Coord) : Finset Coord :=
  (Finset.range rows ×ˢ Finset.range cols).filter (isNbr p)

/-- The number of in-bounds neighbors of `p` that are mined. -/
def mineNbrCount (b : Board) (p : Coord) : Nat :=
  (specNbhd b.rows b.cols p ∩ b.mines_at).card

lemma mem_validNbrs (rows cols row col : Nat) (hr : row < rows) (hc : col < cols)
    (q : Coord) :
    q ∈ validNbrs rows cols row col ↔
      (q.1 < rows ∧ q.2 < cols ∧ isNbr (row, col) q) := by
  obtain ⟨a, d⟩ := q
  simp only [validNbrs, neighborhood]
  split_ifs <;>
    simp only [toCoordOpt, List.filterMap_cons, List.filterMap_nil, List.mem_cons,
      List.not_mem_nil, or_false, Prod.mk.injEq, isNbr, ne_eq, false_iff, iff_false,
      true_iff, iff_true] <;>
    omega

lemma validNbrs_nodup (rows cols row col : Nat) :
    (validNbrs rows cols row col).Nodup := by
  simp only [validNbrs, neighborhood]
  split_ifs <;>
    simp only [toCoordOpt, List.filterMap_cons, List.filterMap_nil,
      List.nodup_cons, List.nodup_nil, List.mem_cons, List.not_mem_nil,
      Prod.mk.injEq, not_or, and_true, or_false, ne_eq, not_false_eq_true,
      true_and] <;>
    first
      | trivial
      | omega
lemma validNbrs_toFinset (rows cols row col : Nat) (hr : row < rows) (hc : col < cols) :
    (validNbrs rows cols row col).toFinset = specNbhd rows cols (row, col) := by
  ext q
  rw [List.mem_toFinset, mem_validNbrs rows cols row col hr hc, specNbhd,
    Finset.mem_filter, Finset.mem_product, Finset.mem_range, Finset.mem_range]
  constructor
  · rintro ⟨h1, h2, h3⟩
    exact ⟨⟨h1, h2⟩, h3⟩
  · rintro ⟨⟨h1, h2⟩, h3⟩
    exact ⟨h1, h2, h3⟩

lemma countP_validNbrs (b : Board) (row col : Nat) (hr : row < b.rows)
    (hc : col < b.cols) :
    (validNbrs b.rows b.cols row col).countP (fun q => decide (q ∈ b.mines_at)) =
      mineNbrCount b (row, col) := by
  rw [List.countP_eq_length_filter, mineNbrCount,
    ← validNbrs_toFinset b.rows b.cols row col hr hc,
    ← List.toFinset_card_of_nodup ((validNbrs_nodup b.rows b.cols row col).filter _),
    List.toFinset_filter]
  congr 1
  ext q
  simp [Finset.mem_filter, Finset.mem_inter]

lemma mineNbrCount_lt_ten (b : Board) (row col : Nat) (hr : row < b.rows)
    (hc : col < b.cols) :
    mineNbrCount b (row, col) < 10 := by
  have h1 : mineNbrCount b (row, col) ≤ (validNbrs b.rows b.cols row col).length := by
    rw [← countP_validNbrs b row col hr hc]
    exact List.countP_le_length _
  have h2 : (validNbrs b.rows b.cols row col).length ≤ 8 :=
    le_trans (List.length_filterMap_le _ _) (by simp [neighborhood])
  omega

lemma digitHead_eq_digitChar (n : Nat) (h9 : n < 10) :
    digitHead n = Nat.digitChar n := by
  rw [digitHead, natChars, Nat.toDigits]
  have hd : n / 10 = 0 := Nat.div_eq_of_lt h9
  have hm : n % 10 = n := Nat.mod_eq_of_lt h9
  rw [Nat.toDigitsCore, hm, hd]
  rfl

@[simp] lemma uiAdjust_notui (c : Coord) : uiAdjust c false = c := rfl

lemma update_label_clear_board (b : Board) (a : Coord) (idx : Nat)
    (hl : lookupLabel b.labels a = some idx) :
    b.update_label a CellLabel.Clear false =
      (true, { b with flagged := b.flagged.erase a,
                      board_string := b.board_string.set idx ' ' }) := by
  simp only [Board.update_label, uiAdjust_notui, hl]

lemma update_label_mined_board (b : Board) (a : Coord) (idx k : Nat)
    (hl : lookupLabel b.labels a = some idx) :
    b.update_label a (CellLabel.MinedNeighbors k) false =
      (true, { b with flagged := b.flagged.erase a,
                      board_string := b.board_string.set idx (digitHead k) }) := by
  simp only [Board.update_label, uiAdjust_notui, hl]

lemma getD_set_self (l : List Char) (i : Nat) (ch : Char) (h : i < l.length) :
    (l.set i ch).getD i ' ' = ch := by
  rw [List.getD_eq_getElem?_getD, List.getElem?_set_self h]
  rfl

/-- C3: a `Step()` that pops a non-mined in-bounds frontier coordinate `p`
with label position `idx` reports `Ok`, inserts `p` into `explored`, counts
the mined in-bounds neighbors of `p`, and then: with a positive count it
writes that count's digit at `p`'s label position and enqueues no neighbors;
with a zero count it writes a blank and enqueues exactly the in-bounds
neighbors of `p` not already explored. -/
theorem C3_step_ok (b : Board) (p : Coord) (idx : Nat)
    (hp : p ∈ b.cached)
    (hr : p.1 < b.rows) (hc : p.2 < b.cols)
    (hm : p ∉ b.mines_at)
    (hl : lookupLabel b.labels p = some idx)
    (hidx : idx < b.board_string.length) :
    (b.explore p).1 = ExploreResult.Ok ∧
    ((b.explore p).2).clear = insert p b.clear ∧
    (0 < mineNbrCount b p →
      ((b.explore p).2).cached = b.cached.erase p ∧
      ((b.explore p).2).board_string.getD idx ' ' = Nat.digitChar (mineNbrCount b p)) ∧
    (mineNbrCount b p = 0 →
      ((b.explore p).2).cached =
        b.cached.erase p ∪ (specNbhd b.rows b.cols p \ insert p b.clear) ∧
      ((b.explore p).2).board_string.getD idx ' ' = ' ') := by
  obtain ⟨row, col⟩ := p
  have hne : b.cached ≠ ∅ := by
    intro h
    rw [h] at hp
    exact absurd hp (Finset.not_mem_empty _)
  have hcnt : (scanNbhd b.mines_at (insert (row, col) b.clear)
      (neighborhood b.rows b.cols row col) ([], 0)).2 = mineNbrCount b (row, col) := by
    rw [scanNbhd_snd, Nat.zero_add, ← validNbrs, countP_validNbrs b row col hr hc]
  simp only [Board.explore]
  rw [if_neg hne, if_neg hm]
  rw [hcnt]
  split_ifs with hpos
  · rw [update_label_mined_board
        { b with cached := b.cached.erase (row, col), clear := insert (row, col) b.clear }
        (row, col) idx _ hl]
    refine ⟨rfl, rfl, fun _ => ⟨rfl, ?_⟩, fun hz => absurd hz (by omega)⟩
    dsimp only
    rw [getD_set_self _ _ _ hidx,
      digitHead_eq_digitChar _ (mineNbrCount_lt_ten b row col hr hc)]
  · rw [update_label_clear_board
        { b with cached := b.cached.erase (row, col), clear := insert (row, col) b.clear }
        (row, col) idx hl]
    have hz : mineNbrCount b (row, col) = 0 := by omega
    have hno : ∀ q ∈ (neighborhood b.rows b.cols row col).filterMap toCoordOpt,
        q ∉ b.mines_at := by
      have := hcnt
      rw [scanNbhd_snd, Nat.zero_add, hz] at this
      intro q hq
      have := List.countP_eq_zero.mp this q hq
      simpa using this
    have hfst : (scanNbhd b.mines_at (insert (row, col) b.clear)
        (neighborhood b.rows b.cols row col) ([], 0)).1 =
        ((neighborhood b.rows b.cols row col).filterMap toCoordOpt).filter
          (fun q => decide (q ∉ insert (row, col) b.clear)) := by
      rw [scanNbhd_fst _ _ _ _ hno, List.nil_append]
    rw [hfst]
    refine ⟨rfl, rfl, fun hgt => absurd hgt (by omega), fun _ => ⟨?_, ?_⟩⟩
    · dsimp only
      congr 1
      rw [← validNbrs, List.toFinset_filter,
        validNbrs_toFinset b.rows b.cols row col hr hc, Finset.sdiff_eq_filter]
      apply Finset.filter_congr
      intro q _
      simp
    · dsimp only
      rw [getD_set_self _ _ _ hidx]

/-- Board used to witness C3: the `2 × 2` board `demoBoard22` (mine at
`(1, 1)`) with `(0, 0)` enqueued; its label position is byte 18. -/
def demoC3 : Board := (demoBoard22.cache (1, 1)).2

/-- Witness for C3 at `demoC3`: popping `(0, 0)` reports `Ok` and labels the
cell with the digit for its one mined neighbor. -/
theorem C3_witness :
    (demoC3.explore (0, 0)).1 = ExploreResult.Ok ∧
    ((demoC3.explore (0, 0)).2).clear = insert (0, 0) demoC3.clear ∧
    (0 < mineNbrCount demoC3 (0, 0) →
      ((demoC3.explore (0, 0)).2).cached = demoC3.cached.erase (0, 0) ∧
      ((demoC3.explore (0, 0)).2).board_string.getD 18 ' ' =
        Nat.digitChar (mineNbrCount demoC3 (0, 0))) ∧
    (mineNbrCount demoC3 (0, 0) = 0 →
      ((demoC3.explore (0, 0)).2).cached =
        demoC3.cached.erase (0, 0) ∪
          (specNbhd demoC3.rows demoC3.cols (0, 0) \ insert (0, 0) demoC3.clear) ∧
      ((demoC3.explore (0, 0)).2).board_string.getD 18 ' ' = ' ') :=
  C3_step_ok demoC3 (0, 0) 18 (by decide) (by decide) (by decide) (by decide)
    (by decide) (by decide)

/-! ### C10: totality and immutability of the labels map -/

lemma digitChar_ne_dot (n : Nat) (h : n < 10) : Nat.digitChar n ≠ '.' := by
  interval_cases n <;> decide

lemma toDigitsCore_ne_dot (fuel : Nat) :
    ∀ (n : Nat) (ds : List Char), (∀ c ∈ ds, c ≠ '.') →
      ∀ c ∈ Nat.toDigitsCore 10 fuel n ds, c ≠ '.' := by
  induction fuel with
  | zero =>
      intro n ds hds c hc
      rw [Nat.toDigitsCore] at hc
      exact hds c hc
  | succ f ih =>
      intro n ds hds c hc
      simp only [Nat.toDigitsCore] at hc
      have hcons : ∀ x ∈ Nat.digitChar (n % 10) :: ds, x ≠ '.' := by
        intro x hx
        rcases List.mem_cons.mp hx with hx | hx
        · rw [hx]
          exact digitChar_ne_dot _ (Nat.mod_lt _ (by omega))
        · exact hds x hx
      by_cases h0 : n / 10 = 0
      · rw [if_pos h0] at hc
        exact hcons c hc
      · rw [if_neg h0] at hc
        exact ih _ _ hcons c hc

lemma count_dot_natChars (n : Nat) : (natChars n).count '.' = 0 := by
  rw [natChars, List.count_eq_zero]
  intro hmem
  exact toDigitsCore_ne_dot _ _ [] (by simp) '.' hmem rfl

lemma count_dot_replicate_space (w : Nat) :
    (List.replicate w ' ').count '.' = 0 := by
  rw [List.count_replicate]
  simp

lemma count_dot_padNum (w n : Nat) : (padNum w n).count '.' = 0 := by
  rw [padNum, List.count_append, count_dot_natChars, count_dot_replicate_space]

lemma count_dot_single (c : Char) (h : (c == '.') = false) :
    ([c] : List Char).count '.' = 0 := by
  simp [List.count_cons, h]

lemma count_dot_flatMap_zero {α : Type} (l : List α) (f : α → List Char)
    (h : ∀ x ∈ l, (f x).count '.' = 0) : (l.flatMap f).count '.' = 0 := by
  induction l with
  | nil => simp
  | cons a t ih =>
      rw [List.flatMap_cons, List.count_append, h a (List.mem_cons_self _ _),
        ih (fun x hx => h x (List.mem_cons_of_mem _ hx))]

lemma count_dot_headerLine (rows cols : Nat) :
    (headerLine rows cols).count '.' = 0 := by
  simp only [headerLine]
  rw [List.count_append, List.count_append, List.count_append,
    count_dot_padNum, count_dot_single '|' (by decide), count_dot_single '\n' (by decide),
    count_dot_flatMap_zero _ _ (fun x _ => by
      rw [List.count_append, count_dot_padNum, count_dot_single '|' (by decide)])]

lemma count_dot_repeatList (blk : List Char) (n : Nat) :
    (repeatList blk n).count '.' = n * blk.count '.' := by
  induction n with
  | zero => simp [repeatList]
  | succ m ih =>
      rw [repeatList, List.count_append, ih]
      ring

lemma count_dot_cell (w : Nat) :
    ((List.replicate w ' ' ++ ['.']).count '.') = 1 := by
  rw [List.count_append, count_dot_replicate_space]
  decide

lemma count_dot_rowLine (rows cols row : Nat) :
    (rowLine rows cols row).count '.' = cols := by
  simp only [rowLine]
  rw [List.count_append, List.count_append, List.count_append,
    count_dot_padNum, count_dot_single '|' (by decide), count_dot_single '\n' (by decide),
    count_dot_repeatList, count_dot_cell]
  ring

lemma count_dot_mkBoardString (rows cols : Nat) :
    (mkBoardString rows cols).count '.' = rows * cols := by
  rw [mkBoardString, List.count_append, count_dot_headerLine, Nat.zero_add]
  have hgen : ∀ l : List Nat, (l.flatMap (rowLine rows cols)).count '.' = l.length * cols := by
    intro l
    induction l with
    | nil => simp
    | cons a t ih =>
        rw [List.flatMap_cons, List.count_append, count_dot_rowLine, ih,
          List.length_cons]
        ring
  rw [hgen, List.length_range]

lemma length_filter_enumFrom (s : List Char) (k : Nat) :
    ((List.enumFrom k s).filter (fun p => decide (p.2 = '.'))).length = s.count '.' := by
  induction s generalizing k with
  | nil => simp
  | cons c t ih =>
      rw [List.enumFrom_cons, List.filter_cons, List.count_cons]
      by_cases h : c = '.'
      · simp [h, ih]
      · simp [h, ih]

lemma length_dotIndices (s : List Char) : (dotIndices s).length = s.count '.' := by
  rw [dotIndices, List.length_map, List.enum]
  exact length_filter_enumFrom s 0

lemma mkLabels_keys (s : List Char) (cols : Nat) :
    (mkLabels s cols).map Prod.fst =
      (List.range (dotIndices s).length).map (fun n => ((n / cols, n % cols) : Coord)) := by
  rw [mkLabels, List.map_map]
  have hcomp : (Prod.fst ∘ fun p : Nat × Nat => (((p.1 / cols, p.1 % cols) : Coord), p.2))
      = (fun n : Nat => ((n / cols, n % cols) : Coord)) ∘ Prod.fst := rfl
  rw [hcomp, ← List.map_map, List.enum_map_fst]

lemma divmod_injective (cols : Nat) :
    Function.Injective (fun n : Nat => ((n / cols, n % cols) : Coord)) := by
  intro a b h
  simp only [Prod.mk.injEq] at h
  calc a = cols * (a / cols) + a % cols := (Nat.div_add_mod a cols).symm
    _ = cols * (b / cols) + b % cols := by rw [h.1, h.2]
    _ = b := Nat.div_add_mod b cols

lemma mkLabels_keys_nodup (s : List Char) (cols : Nat) :
    ((mkLabels s cols).map Prod.fst).Nodup := by
  rw [mkLabels_keys]
  exact (List.nodup_range _).map (divmod_injective cols)

lemma mem_mkLabels_keys (s : List Char) (rows cols : Nat) (hcols : 0 < cols)
    (hcount : (dotIndices s).length = rows * cols) (r c : Nat) :
    (((r, c) : Coord) ∈ (mkLabels s cols).map Prod.fst) ↔ (r < rows ∧ c < cols) := by
  rw [mkLabels_keys, hcount]
  constructor
  · intro h
    rw [List.mem_map] at h
    obtain ⟨n, hn, heq⟩ := h
    rw [List.mem_range] at hn
    simp only [Prod.mk.injEq] at heq
    refine ⟨?_, ?_⟩
    · rw [← heq.1, Nat.div_lt_iff_lt_mul hcols]
      exact hn
    · rw [← heq.2]
      exact Nat.mod_lt _ hcols
  · rintro ⟨h1, h2⟩
    rw [List.mem_map]
    refine ⟨r * cols + c, ?_, ?_⟩
    · rw [List.mem_range]
      calc r * cols + c < r * cols + cols := by omega
        _ = (r + 1) * cols := by ring
        _ ≤ rows * cols := Nat.mul_le_mul_right _ (by omega)
    · have hrw : r * cols + c = cols * r + c := by ring
      simp only [Prod.mk.injEq]
      constructor
      · rw [hrw, Nat.mul_add_div hcols, Nat.div_eq_of_lt h2, Nat.add_zero]
      · rw [hrw, Nat.mul_add_mod, Nat.mod_eq_of_lt h2]

lemma lookupLabel_isSome (l : List (Coord × Nat)) (c : Coord)
    (h : c ∈ l.map Prod.fst) : (lookupLabel l c).isSome = true := by
  rw [lookupLabel]
  have hsome : (List.find? (fun p => decide (p.1 = c)) l).isSome = true := by
    rw [List.find?_isSome]
    rw [List.mem_map] at h
    obtain ⟨p, hp, hpc⟩ := h
    exact ⟨p, hp, by simp [hpc]⟩
  rcases Option.isSome_iff_exists.mp hsome with ⟨p, hp⟩
  rw [hp]
  rfl

/-- C10: after every successful construction the labels map is a bijection
onto the `rows * cols` in-bounds coordinates (no key repeats, one key per
in-bounds coordinate), so every label lookup on an in-bounds coordinate —
in particular on any mine drawn from `[0, rows * cols)` — succeeds, and no
engine operation (`cache`, `explore`, `update_label`, hence also
`reveal_mines` inside `explore`) ever modifies the map. -/
theorem C10_labels_total (rows cols mc : Nat) (draws : List Nat) (b : Board)
    (hok : Board.new rows cols mc draws = Except.ok b) :
    ((b.labels.map Prod.fst).Nodup ∧
     (b.labels.map Prod.fst).length = rows * cols ∧
     ∀ r c : Nat, ((((r, c) : Coord) ∈ b.labels.map Prod.fst) ↔ (r < rows ∧ c < cols))) ∧
    (∀ r c : Nat, r < rows → c < cols → (lookupLabel b.labels (r, c)).isSome = true) ∧
    ((∀ d ∈ draws, d < rows * cols) →
      ∀ m ∈ b.mines_at, (lookupLabel b.labels m).isSome = true) ∧
    (∀ (a : Board) (coord : Coord), ((a.cache coord).2).labels = a.labels) ∧
    (∀ (a : Board) (p : Coord), ((a.explore p).2).labels = a.labels) ∧
    (∀ (a : Board) (c0 : Coord) (lab : CellLabel) (f : Bool),
      ((a.update_label c0 lab f).2).labels = a.labels) := by
  obtain ⟨_, _, _, _, _, _, hmines, _, hlabels, hnz, _⟩ := new_ok_elim _ _ _ _ _ hok
  have hcols : 0 < cols := (usizeMul_ne_zero_pos hnz).2
  have hcount : (dotIndices (mkBoardString rows cols)).length = rows * cols := by
    rw [length_dotIndices, count_dot_mkBoardString]
  have hmem : ∀ r c : Nat,
      ((((r, c) : Coord) ∈ b.labels.map Prod.fst) ↔ (r < rows ∧ c < cols)) := by
    intro r c
    rw [hlabels]
    exact mem_mkLabels_keys _ rows cols hcols hcount r c
  refine ⟨⟨?_, ?_, hmem⟩, ?_, ?_, ?_, ?_, ?_⟩
  · rw [hlabels]
    exact mkLabels_keys_nodup _ _
  · rw [hlabels, mkLabels_keys, List.length_map, List.length_range, hcount]
  · intro r c hr hc
    exact lookupLabel_isSome _ _ ((hmem r c).mpr ⟨hr, hc⟩)
  · intro hdraws m hm
    rw [hmines, List.mem_toFinset, List.mem_map] at hm
    obtain ⟨d, hd, rfl⟩ := hm
    have hdb : d < rows * cols := hdraws d (List.take_subset _ _ hd)
    refine lookupLabel_isSome _ _ ((hmem _ _).mpr ⟨?_, Nat.mod_lt _ hcols⟩)
    rw [Nat.div_lt_iff_lt_mul hcols]
    exact hdb
  · intro a coord
    exact (cache_same a coord).2.2.2.2.2.2.1
  · intro a p
    exact (explore_same a p).2.2.2.2
  · intro a c0 lab f
    exact (update_label_same a c0 lab f).2.2.2.2.2.2

/-- Witness for C10 at the concrete `2 × 2` construction `demoBoard22`. -/
theorem C10_witness :
    ((demoBoard22.labels.map Prod.fst).Nodup ∧
     (demoBoard22.labels.map Prod.fst).length = 2 * 2 ∧
     ∀ r c : Nat,
       ((((r, c) : Coord) ∈ demoBoard22.labels.map Prod.fst) ↔ (r < 2 ∧ c < 2))) ∧
    (∀ r c : Nat, r < 2 → c < 2 →
      (lookupLabel demoBoard22.labels (r, c)).isSome = true) ∧
    ((∀ d ∈ [3], d < 2 * 2) →
      ∀ m ∈ demoBoard22.mines_at, (lookupLabel demoBoard22.labels m).isSome = true) ∧
    (∀ (a : Board) (coord : Coord), ((a.cache coord).2).labels = a.labels) ∧
    (∀ (a : Board) (p : Coord), ((a.explore p).2).labels = a.labels) ∧
    (∀ (a : Board) (c0 : Coord) (lab : CellLabel) (f : Bool),
      ((a.update_label c0 lab f).2).labels = a.labels) :=
  C10_labels_total 2 2 1 [3] demoBoard22 (by rfl)

end RMines
